import Mathlib

/-!
Verification of the `sync` package of go-file-diff: the rolling weak hash,
the SHA-256 strong hash, the Signature builder, and the Delta builder
(`sync/sync.go`).  Go byte values are modelled as `Nat` (call sites carry the
`< 256` bound where a claim mentions bytes); Go `int64`/`int` values are
modelled as `Int`.  All `int64` arithmetic reachable from the verified entry
points stays well inside the `int64` range (the largest intermediate value is
bounded by `255 * (11^16 - 1) / 10 < 2^61`), so no wrap-around modelling is
needed.  `math.Pow(11, m)` is exact in IEEE-754 double precision for
`0 ≤ m ≤ 15` (every intermediate product of the square-and-multiply chain is
below `2^53`), so it is modelled as the exact integer power.
-/

set_option maxRecDepth 200000

/-- Go byte source feeding a `bufio.Reader`: the bytes of the file followed
either by a clean end of stream (`readErr = false`, reads past the end return
`io.EOF`) or by a failing read (`readErr = true`). -/
structure ByteSource where
  data : List Nat
  readErr : Bool
deriving DecidableEq, Repr

/-- Errors of the sync package that the verified code distinguishes:
`endOfFile` models `errors.New(constants.EndOfFileError)`, `noChanges` models
`errors.New(constants.UpdatedFileHasNoChangesError)`, and `ioError` stands for
any other (opaque) read error. -/
inductive SyncError where
  | endOfFile : SyncError
  | noChanges : SyncError
  | ioError : SyncError
deriving DecidableEq, Repr

deriving instance DecidableEq for Except

/-- models.StrongSignature: SHA-256 hex of a window plus the head and tail
offsets of the window in the original file. -/
structure StrongSignature where
  Hash : String
  Head : Int
  Tail : Int
deriving DecidableEq, Repr

/-- models.Block: an entry of a Delta. -/
structure Block where
  Head : Int
  Tail : Int
  IsModified : Bool
  Value : List Nat
deriving DecidableEq, Repr

/-- models.Signature = map[int64]StrongSignature, modelled as an association
list with distinct keys (insertion order retained, updates in place). -/
abbrev Signature := List (Int × StrongSignature)

/-- models.Delta = map[int]Block, modelled like `Signature`. -/
abbrev Delta := List (Int × Block)

/-- Lookup in the association-list model of a Go map. -/
def lookupKV {β : Type} : List (Int × β) → Int → Option β
  | [], _ => none
  | (k', v) :: rest, k => if k' = k then some v else lookupKV rest k

/-- Go map assignment `m[k] = v`: replaces the entry in place when the key is
present, otherwise appends it. -/
def mapInsert {β : Type} : List (Int × β) → Int → β → List (Int × β)
  | [], k, v => [(k, v)]
  | (k', v') :: rest, k, v =>
    if k' = k then (k, v) :: rest else (k', v') :: mapInsert rest k v

/-- sync.go package constant `chunk` (window size W). -/
def chunk : Int := 16

/-- sync.go package constant `seed` (polynomial base B). -/
def seed : Int := 11

/-- sync.go package constant `mod` = 10^11 + 9 (the modulus M). -/
def modM : Int := 100000000009

/-- modulo() from sync.go: `new(big.Int).Mod(x, y)`, the Euclidean modulus.
Lean's `Int.emod` (the `%` of `Int`) has exactly big.Int.Mod's convention:
a result in `[0, |y|)` for `y ≠ 0`. -/
def modulo (x y : Int) : Int := x % y

/-- Value of `int64(math.Pow(float64(seed), float64(m)))` for the seed 11:
exact power for `0 ≤ m ≤ 15` (all below `2^53`), and `0` for negative `m`
(the fractional value truncates toward zero). -/
def pow11 (m : Int) : Int := if m < 0 then 0 else seed ^ m.toNat

/-- The accumulation loop of generateWeakHash(): `Σ buffer[i] * 11^(m - i)`
with `m` the starting multiplier. -/
def weakHashSum : List Nat → Int → Int
  | [], _ => 0
  | b :: rest, multiplier => (b : Int) * pow11 multiplier + weakHashSum rest (multiplier - 1)

/-- generateWeakHash() from sync.go: the Rabin–Karp polynomial hash
`(Σ buffer[i] * seed^(chunkSize-1-i)) mod M`. -/
def generateWeakHash (buffer : List Nat) (chunkSize : Int) : Int :=
  modulo (weakHashSum buffer (chunkSize - 1)) modM

/-- rollWeakHash() from sync.go:
`((((hash - (initialByte * seed^(n-1)) % M) * seed) % M) + nextByte) % M`. -/
def rollWeakHash (hash : Int) (initialByte nextByte : Nat) (chunkSize : Int) : Int :=
  let hashedInitialByte : Int := (initialByte : Int) * pow11 (chunkSize - 1)
  let updatedHash1 : Int := hash - modulo hashedInitialByte modM
  let updatedHash2 : Int := updatedHash1 * seed
  let updatedHash3 : Int := modulo updatedHash2 modM + (nextByte : Int)
  modulo updatedHash3 modM

/-! SHA-256 (crypto/sha256), specialised to whole-byte messages.  Words are
`Nat`s kept below `2^32` by explicit reduction. -/

/-- Reduce to a 32-bit word. -/
def w32 (x : Nat) : Nat := x % 4294967296

/-- 32-bit right rotation. -/
def rotr (n x : Nat) : Nat := (x >>> n) ||| ((x <<< (32 - n)) % 4294967296)

/-- SHA-256 σ0. -/
def smallSigma0 (x : Nat) : Nat := (rotr 7 x) ^^^ (rotr 18 x) ^^^ (x >>> 3)

/-- SHA-256 σ1. -/
def smallSigma1 (x : Nat) : Nat := (rotr 17 x) ^^^ (rotr 19 x) ^^^ (x >>> 10)

/-- SHA-256 Σ0. -/
def bigSigma0 (x : Nat) : Nat := (rotr 2 x) ^^^ (rotr 13 x) ^^^ (rotr 22 x)

/-- SHA-256 Σ1. -/
def bigSigma1 (x : Nat) : Nat := (rotr 6 x) ^^^ (rotr 11 x) ^^^ (rotr 25 x)

/-- SHA-256 choice function; `¬e` is complement within 32 bits. -/
def chFun (e f g : Nat) : Nat := (e &&& f) ^^^ ((e ^^^ 4294967295) &&& g)

/-- SHA-256 majority function. -/
def majFun (a b c : Nat) : Nat := (a &&& b) ^^^ (a &&& c) ^^^ (b &&& c)

/-- The 64 SHA-256 round constants of FIPS 180-4 (written in decimal). -/
def shaK : List Nat :=
  [1116352408, 1899447441, 3049323471, 3921009573, 961987163, 1508970993, 2453635748,
   2870763221, 3624381080, 310598401, 607225278, 1426881987, 1925078388, 2162078206,
   2614888103, 3248222580, 3835390401, 4022224774, 264347078, 604807628, 770255983,
   1249150122, 1555081692, 1996064986, 2554220882, 2821834349, 2952996808, 3210313671,
   3336571891, 3584528711, 113926993, 338241895, 666307205, 773529912, 1294757372,
   1396182291, 1695183700, 1986661051, 2177026350, 2456956037, 2730485921, 2820302411,
   3259730800, 3345764771, 3516065817, 3600352804, 4094571909, 275423344, 430227734,
   506948616, 659060556, 883997877, 958139571, 1322822218, 1537002063, 1747873779,
   1955562222, 2024104815, 2227730452, 2361852424, 2428436474, 2756734187, 3204031479,
   3329325298]

/-- The eight working words of the SHA-256 state. -/
structure Hash8 where
  a : Nat
  b : Nat
  c : Nat
  d : Nat
  e : Nat
  f : Nat
  g : Nat
  h : Nat
deriving DecidableEq, Repr

/-- SHA-256 initial state (the eight fractional-part words, in decimal). -/
def initH : Hash8 :=
  ⟨1779033703, 3144134277, 1013904242, 2773480762,
   1359893119, 2600822924, 528734635, 1541459225⟩

/-- Big-endian 4-byte groups to 32-bit words. -/
def bytesToWords : List Nat → List Nat
  | b0 :: b1 :: b2 :: b3 :: rest => (((b0 * 256 + b1) * 256 + b2) * 256 + b3) :: bytesToWords rest
  | _ => []

/-- Message-schedule extension; `ws` holds the words produced so far, most
recent first. -/
def extendW : Nat → List Nat → List Nat
  | 0, ws => ws
  | n + 1, ws =>
    let nw := w32 (smallSigma1 (ws.getD 1 0) + ws.getD 6 0 + smallSigma0 (ws.getD 14 0) + ws.getD 15 0)
    extendW n (nw :: ws)

/-- The 64 compression rounds; the list pairs each round constant with its
schedule word. -/
def compressRounds (st : Hash8) : List (Nat × Nat) → Hash8
  | [] => st
  | (kv, wv) :: rest =>
    let t1 := w32 (st.h + bigSigma1 st.e + chFun st.e st.f st.g + kv + wv)
    let t2 := w32 (bigSigma0 st.a + majFun st.a st.b st.c)
    compressRounds ⟨w32 (t1 + t2), st.a, st.b, st.c, w32 (st.d + t1), st.e, st.f, st.g⟩ rest

/-- Word-wise sum of two states. -/
def addHash8 (x y : Hash8) : Hash8 :=
  ⟨w32 (x.a + y.a), w32 (x.b + y.b), w32 (x.c + y.c), w32 (x.d + y.d),
   w32 (x.e + y.e), w32 (x.f + y.f), w32 (x.g + y.g), w32 (x.h + y.h)⟩

/-- Process one 64-byte block. -/
def processBlock (st : Hash8) (block : List Nat) : Hash8 :=
  let w16 := bytesToWords block
  let ws := (extendW 48 w16.reverse).reverse
  addHash8 st (compressRounds st (shaK.zip ws))

/-- Process the padded message 64 bytes at a time; the fuel is any bound on
the number of blocks (the callers pass the message length). -/
def processBlocks : Nat → Hash8 → List Nat → Hash8
  | 0, st, _ => st
  | fuel + 1, st, msg =>
    if msg.isEmpty then st
    else processBlocks fuel (processBlock st (msg.take 64)) (msg.drop 64)

/-- Big-endian encoding of `n` in `len` bytes. -/
def natToBytesBE : Nat → Nat → List Nat
  | 0, _ => []
  | len + 1, n => natToBytesBE len (n / 256) ++ [n % 256]

/-- SHA-256 padding: `0x80`, zeros to 56 mod 64, then the 64-bit bit length. -/
def padMessage (msg : List Nat) : List Nat :=
  let l := msg.length
  let z := (184 - ((l + 1) % 64)) % 64
  msg ++ [128] ++ List.replicate z 0 ++ natToBytesBE 8 (8 * l)

/-- Big-endian bytes of a 32-bit word. -/
def wordToBytes (x : Nat) : List Nat :=
  [x / 16777216 % 256, x / 65536 % 256, x / 256 % 256, x % 256]

/-- SHA-256 digest (32 bytes) of a byte message. -/
def sha256 (msg : List Nat) : List Nat :=
  let padded := padMessage msg
  let st := processBlocks padded.length initH padded
  (([st.a, st.b, st.c, st.d, st.e, st.f, st.g, st.h]).map wordToBytes).flatten

/-- Lowercase hex digit. -/
def hexChar (n : Nat) : Char := Char.ofNat (if n < 10 then 48 + n else 87 + n)

/-- hex.EncodeToString: lowercase hex rendering of a byte list. -/
def bytesToHexStr (l : List Nat) : String :=
  String.mk ((l.map (fun b => [hexChar (b / 16), hexChar (b % 16)])).flatten)

/-- generateStrongHash() from sync.go: SHA-256 of the buffer as a lowercase
hex string (the chunkSize argument is unused, as in the source). -/
def generateStrongHash (buffer : List Nat) (chunkSize : Int) : String :=
  bytesToHexStr (sha256 buffer)

/-! The windowed byte stream. -/

/-- pop() from sync.go: remove the first item of the buffer.  The source reads
`buffer[0]`; every call site passes the 16-byte window, so the default of
`headD` is never taken. -/
def pop (buffer : List Nat) : List Nat × Nat :=
  (buffer.drop 1, buffer.headD 0)

/-- push() from sync.go: append an item to the buffer. -/
def push (buffer : List Nat) (item : Nat) : List Nat := buffer ++ [item]

/-- populateBuffer() from sync.go.  Go allocates a zero-filled buffer of
`chunkSize` bytes and performs one `reader.Read(buffer)`.  For a bufio.Reader
over a file that read returns `min(chunkSize, available)` bytes and fails only
when no byte is available (io.EOF, mapped to the EndOfFileError, or the
underlying read error).  `n = 0` is also mapped to EndOfFileError.  Returns
the buffer (zero-padded when fewer than `chunkSize` bytes were available)
together with the number of bytes consumed from the source. -/
def populateBuffer (src : ByteSource) (chunkSize : Int) : Except SyncError (List Nat × Nat) :=
  if src.data.length = 0 then
    if src.readErr then Except.error SyncError.ioError else Except.error SyncError.endOfFile
  else
    let n := min chunkSize.toNat src.data.length
    Except.ok (src.data.take n ++ List.replicate (chunkSize.toNat - n) 0, n)

/-- roll() from sync.go: read one byte (`rest` is the unread remainder of the
source), pop the front of the window and push the new byte.  Returns the new
window, the evicted byte, the new byte, and the remaining stream. -/
def roll (rest : List Nat) (readErr : Bool) (buffer : List Nat) :
    Except SyncError (List Nat × Nat × Nat × List Nat) :=
  match rest with
  | [] => if readErr then Except.error SyncError.ioError else Except.error SyncError.endOfFile
  | nextByte :: rest' =>
    Except.ok (push (pop buffer).1 nextByte, (pop buffer).2, nextByte, rest')

/-- compareChecksums() from sync.go: look the weak hash up in the Signature;
on a hit compare the SHA-256 hex of the window against the stored strong hash.
Returns `(true, item.Head, item.Tail)` on a full match and `(false, -1, -1)`
otherwise.  (The verbose-logging parameter of the source is dropped.) -/
def compareChecksums (signature : Signature) (buffer : List Nat) (weakHash : Int) :
    Bool × Int × Int :=
  match lookupKV signature weakHash with
  | some item =>
    let strongHash := generateStrongHash buffer chunk
    if strongHash = item.Hash then (true, item.Head, item.Tail) else (false, -1, -1)
  | none => (false, -1, -1)

/-! The Signature builder. -/

/-- The loop of GenerateSignature(), recursing on the unread remainder of the
source.  Matching on `rest` inlines the two outcomes of `roll`: a byte is
available exactly when `rest` is non-empty.  Go increments `head`/`tail`
before attempting the roll; the incremented values are dead on the EOF path,
so incrementing after the successful roll is equivalent. -/
def signatureLoop (rest buffer : List Nat) (readErr : Bool) (weakHash : Int)
    (head tail : Int) (signature : Signature) : Except SyncError Signature :=
  match rest with
  | [] => if readErr then Except.error SyncError.ioError else Except.ok signature
  | nextByte :: rest' =>
    let buffer' := push (pop buffer).1 nextByte
    let weakHash' := rollWeakHash weakHash (pop buffer).2 nextByte chunk
    let strongHash := generateStrongHash buffer' chunk
    signatureLoop rest' buffer' readErr weakHash' (head + 1) (tail + 1)
      (mapInsert signature weakHash' (StrongSignature.mk strongHash (head + 1) (tail + 1)))

/-- GenerateSignature() from sync.go. -/
def GenerateSignature (src : ByteSource) : Except SyncError Signature :=
  match populateBuffer src chunk with
  | Except.error e => Except.error e
  | Except.ok (buffer, consumed) =>
    let weakHash := generateWeakHash buffer chunk
    let strongHash := generateStrongHash buffer chunk
    let sig0 := mapInsert [] weakHash (StrongSignature.mk strongHash 0 (chunk - 1))
    signatureLoop (src.data.drop consumed) buffer src.readErr weakHash 0 (chunk - 1) sig0

/-! The Delta builder. -/

/-- generateMatchedBlock() from sync.go.  Returns the updated delta, the new
open block, the new block head, and the new initialBlockMatches flag; `none`
models the runtime panic of the slice expression `block.Value[0:block.Tail+1]`
when the bound is negative (or beyond the value's length). -/
def generateMatchedBlock (delta : Delta) (block : Block) (ex ibm : Bool)
    (blockHead deltaHead rollHead rollTail : Int) (rollEx : Bool) :
    Option (Delta × Block × Int × Bool) :=
  if ex then
    some (delta, { block with Tail := block.Tail + 1 }, blockHead, ibm)
  else
    if !ibm then
      let delta' := mapInsert delta blockHead block
      some (delta', Block.mk rollHead rollTail (!rollEx) [], deltaHead, true)
    else
      let newTail := block.Tail + 1 - chunk
      if newTail + 1 < 0 ∨ (block.Value.length : Int) < newTail + 1 then none
      else
        let block' : Block :=
          { block with Tail := newTail, Value := block.Value.take (newTail + 1).toNat }
        let delta' := mapInsert delta blockHead block'
        some (delta', Block.mk rollHead rollTail (!rollEx) [], deltaHead, true)

/-- generateMissingBlock() from sync.go.  Returns the updated delta, the new
open block and the new block head.  The source reads `buffer[0]` of the rolled
window in the initial-prefix branch; `headD` models it (the window is never
empty at the call sites). -/
def generateMissingBlock (delta : Delta) (block : Block) (ex ibm : Bool)
    (blockHead : Int) (nextByte : Nat) (buffer : List Nat) : Delta × Block × Int :=
  if ex then
    let delta' := mapInsert delta blockHead block
    let blockHead' := blockHead + block.Tail - block.Head + 1
    (delta', Block.mk 0 0 ex [nextByte], blockHead')
  else
    let value' := if !ibm then block.Value ++ [buffer.headD 0] else block.Value ++ [nextByte]
    (delta, { block with Tail := block.Tail + 1, Value := value' }, blockHead)

/-- Outcome of the loop of GenerateDelta(), before the no-change check. -/
inductive LoopResult where
  | finished : Delta → LoopResult
  | failed : SyncError → LoopResult
  | outOfRange : LoopResult
deriving DecidableEq, Repr

/-- Overall outcome of GenerateDelta(): a Delta with nil error, an empty Delta
with an error, or the runtime panic of the truncation slice. -/
inductive DeltaOutcome where
  | ok : Delta → DeltaOutcome
  | err : SyncError → DeltaOutcome
  | outOfRange : DeltaOutcome
deriving DecidableEq, Repr

/-- The loop of GenerateDelta(), recursing on the unread remainder of the
source.  The dead variable `deltaTail` of the source (incremented, never read)
is omitted.  On end of stream the open block is added to the delta; a non-EOF
read error propagates. -/
def deltaLoop (signature : Signature) (readErr : Bool) : List Nat → List Nat → Int →
    Delta → Block → Bool → Bool → Int → Int → LoopResult
  | [], _, _, delta, block, _, _, blockHead, _ =>
    if readErr then LoopResult.failed SyncError.ioError
    else LoopResult.finished (mapInsert delta blockHead block)
  | nextByte :: rest', buffer, weakHash, delta, block, ex, ibm, blockHead, deltaHead =>
    let buffer' := push (pop buffer).1 nextByte
    let deltaHead' := deltaHead + 1
    let weakHash' := rollWeakHash weakHash (pop buffer).2 nextByte chunk
    let res := compareChecksums signature buffer' weakHash'
    if res.1 then
      match generateMatchedBlock delta block ex ibm blockHead deltaHead' res.2.1 res.2.2 true with
      | none => LoopResult.outOfRange
      | some q =>
        deltaLoop signature readErr rest' buffer' weakHash' q.1 q.2.1 true q.2.2.2 q.2.2.1 deltaHead'
    else
      let gm := generateMissingBlock delta block ex ibm blockHead nextByte buffer'
      deltaLoop signature readErr rest' buffer' weakHash' gm.1 gm.2.1 false ibm gm.2.2 deltaHead'

/-- Priming and loop of GenerateDelta(), up to (but not including) the
no-change check. -/
def GenerateDeltaLoop (src : ByteSource) (signature : Signature) : LoopResult :=
  match populateBuffer src chunk with
  | Except.error e => LoopResult.failed e
  | Except.ok (buffer, consumed) =>
    let weakHash := generateWeakHash buffer chunk
    let res := compareChecksums signature buffer weakHash
    let block := if res.1 then Block.mk res.2.1 res.2.2 (!res.1) []
                 else Block.mk 0 0 (!res.1) [buffer.headD 0]
    deltaLoop signature src.readErr (src.data.drop consumed) buffer weakHash [] block res.1 res.1 0 0

/-- The no-change test of GenerateDelta():
`len(delta) == 1 && !delta[0].IsModified`.  Indexing a Go map at an absent key
yields the zero Block (whose IsModified is false), which `getD` models. -/
def hasNoChanges (delta : Delta) : Bool :=
  delta.length == 1 && !((lookupKV delta 0).getD (Block.mk 0 0 false [])).IsModified

/-- GenerateDelta() from sync.go. -/
def GenerateDelta (src : ByteSource) (signature : Signature) : DeltaOutcome :=
  match GenerateDeltaLoop src signature with
  | LoopResult.failed e => DeltaOutcome.err e
  | LoopResult.outOfRange => DeltaOutcome.outOfRange
  | LoopResult.finished delta =>
    if hasNoChanges delta then DeltaOutcome.err SyncError.noChanges
    else DeltaOutcome.ok delta

/-! Spec-side vocabulary for the Delta invariants (translated from the words
of the specification, to be compared with the code's behaviour). -/

/-- Number of destination bytes a Delta block accounts for. -/
def spanOf (b : Block) : Int := b.Tail - b.Head + 1

/-- The blocks, in list order, tile `[start, stop)`: each entry's key is the
running destination offset, every block is non-empty, and the spans add up to
the full range. -/
def tilesB : List (Int × Block) → Int → Int → Bool
  | [], start, stop => start == stop
  | (k, b) :: rest, start, stop =>
    (k == start) && decide (0 < spanOf b) && tilesB rest (start + spanOf b) stop

/-- Adjacent blocks strictly alternate matched/modified (the spec's claim). -/
def strictAltB : List (Int × Block) → Bool
  | (_, b1) :: (k2, b2) :: rest =>
    (b1.IsModified != b2.IsModified) && strictAltB ((k2, b2) :: rest)
  | _ => true

/-- No two adjacent blocks are both modified (the weakening that the code
actually guarantees: two matched blocks may be adjacent). -/
def noAdjModB : List (Int × Block) → Bool
  | (_, b1) :: (k2, b2) :: rest =>
    (!(b1.IsModified && b2.IsModified)) && noAdjModB ((k2, b2) :: rest)
  | _ => true

/-- Whether the last entry of the association list is a modified block. -/
def lastModB : List (Int × Block) → Bool
  | [] => false
  | [(_, b)] => b.IsModified
  | _ :: rest => lastModB rest

/-- Insertion into a key-sorted association list. -/
def insertSorted (p : Int × Block) : List (Int × Block) → List (Int × Block)
  | [] => [p]
  | q :: rest => if p.1 ≤ q.1 then p :: q :: rest else q :: insertSorted p rest

/-- The entries sorted by ascending key ("visiting its keys in ascending
order"). -/
def sortByKey (d : List (Int × Block)) : List (Int × Block) :=
  d.foldr insertSorted []

/-- The claim's Delta invariant, word for word: visiting the keys in ascending
order, the blocks tile `[0, len)` starting at key 0 without gap or overlap,
and adjacent blocks alternate between matched and modified. -/
def deltaTilesAndAlternates (d : Delta) (len : Int) : Bool :=
  tilesB (sortByKey d) 0 len && strictAltB (sortByKey d)

/-! Concrete data used by the pinned-down scenarios. -/

/-- ASCII bytes of "abcdefghijklmnop" (the test window of the source). -/
def testBuffer : List Nat :=
  [97, 98, 99, 100, 101, 102, 103, 104, 105, 106, 107, 108, 109, 110, 111, 112]

/-- The 16-byte window of a stream at offset `i`. -/
def windowAt (D : List Nat) (i : Nat) : List Nat := (D.drop i).take 16

/-- Weak hash of the window at offset `i`. -/
def weakOf (D : List Nat) (i : Nat) : Int := generateWeakHash (windowAt D i) chunk

/-- Strong hash of the window at offset `i`. -/
def strongOf (D : List Nat) (i : Nat) : String := generateStrongHash (windowAt D i) chunk

/-- Invariant of the loop of GenerateDelta(), at the top of each iteration.
The three reachable shapes of the state (`ibm` = initialBlockMatches,
`ex` = previous position matched):

* `ibm = false`: still inside an initial unmatched prefix — nothing emitted,
  the open modified block holds the destination bytes `0..deltaHead`;
* `ibm = true, ex = true`: open matched block; its span counts the
  destination bytes `blockHead..deltaHead+15`, and the emitted delta tiles
  `[0, blockHead)`, either cleanly (last emitted block modified) or with a
  trailing empty modified block at key `blockHead` that the matched block
  will overwrite;
* `ibm = true, ex = false`: open (non-initial) modified block holding the
  destination bytes `blockHead..deltaHead+15` minus the trailing window, with
  the emitted delta tiling `[0, blockHead)` and ending in a matched block. -/
def DeltaInv (delta : Delta) (block : Block) (ex ibm : Bool) (blockHead deltaHead : Int) : Prop :=
  match ibm, ex with
  | false, false =>
    delta = [] ∧ blockHead = 0 ∧ 0 ≤ deltaHead ∧ block.Head = 0 ∧ block.Tail = deltaHead ∧
    block.IsModified = true ∧ (block.Value.length : Int) = deltaHead + 1
  | false, true => False
  | true, true =>
    block.IsModified = false ∧ 16 ≤ spanOf block ∧ spanOf block = deltaHead + 16 - blockHead ∧
    ((delta = [] ∧ blockHead = 0) ∨
     (tilesB delta 0 blockHead = true ∧ noAdjModB delta = true ∧ delta ≠ [] ∧
       lastModB delta = true) ∨
     (∃ d0 z, delta = d0 ++ [(blockHead, z)] ∧ z.IsModified = true ∧ spanOf z = 0 ∧
       tilesB d0 0 blockHead = true ∧ noAdjModB d0 = true ∧ d0 ≠ [] ∧ lastModB d0 = false))
  | true, false =>
    block.IsModified = true ∧ block.Head = 0 ∧ 0 ≤ block.Tail ∧
    (block.Value.length : Int) = block.Tail + 1 ∧
    blockHead + block.Tail + 1 = deltaHead + 16 ∧
    tilesB delta 0 blockHead = true ∧ noAdjModB delta = true ∧ delta ≠ [] ∧
    lastModB delta = false

/-! Lemmas about the polynomial weak hash. -/

/-- One step of the power recurrence, valid on non-negative exponents. -/
theorem pow11_succ (m : Int) (h : 0 ≤ m) : pow11 (m + 1) = seed * pow11 m := by
  unfold pow11
  rw [if_neg (by omega), if_neg (by omega), show (m + 1).toNat = m.toNat + 1 by omega, pow_succ]
  ring

/-- Appending one byte contributes `b * 11^(m - |l|)` to the accumulated sum. -/
theorem weakHashSum_append_single (l : List Nat) (b : Nat) :
    ∀ m : Int, weakHashSum (l ++ [b]) m = weakHashSum l m + (b : Int) * pow11 (m - l.length) := by
  induction l with
  | nil => intro m; simp [weakHashSum]
  | cons x xs ih =>
    intro m
    simp only [List.cons_append, weakHashSum, List.length_cons]
    rw [show xs.append [b] = xs ++ [b] from rfl, ih]
    have h1 : m - 1 - (xs.length : Int) = m - ((xs.length : Int) + 1) := by ring
    push_cast
    rw [h1]
    ring

/-- Raising the starting multiplier by one multiplies the sum by the seed, as
long as every exponent that is actually used stays non-negative. -/
theorem weakHashSum_mul_seed (l : List Nat) :
    ∀ m : Int, (l.length : Int) ≤ m + 1 → weakHashSum l (m + 1) = seed * weakHashSum l m := by
  induction l with
  | nil => intro m _; simp [weakHashSum]
  | cons x xs ih =>
    intro m hm
    simp only [weakHashSum, List.length_cons] at hm ⊢
    push_cast at hm
    have h0 : 0 ≤ m := by
      have := Int.natCast_nonneg xs.length
      omega
    rw [pow11_succ m h0]
    have ih' := ih (m - 1) (by omega)
    rw [sub_add_cancel] at ih'
    rw [show m + 1 - 1 = m by ring, ih']
    ring

/-- Core roll/recompute agreement, for arbitrary 16-element windows (byte
bounds are not needed: the identity is modular arithmetic). -/
theorem rollWeakHash_shifts (a : Nat) (rest : List Nat) (b : Nat)
    (hlen : (a :: rest).length = 16) :
    rollWeakHash (generateWeakHash (a :: rest) 16) a b 16 =
      generateWeakHash (rest ++ [b]) 16 := by
  have hr : rest.length = 15 := by simpa using hlen
  have p15 : pow11 (16 - 1) = 4177248169415651 := by decide
  have p0 : pow11 0 = 1 := by decide
  have e1 : weakHashSum (a :: rest) (16 - 1) = (a : Int) * 4177248169415651 + weakHashSum rest 14 := by
    simp only [weakHashSum]
    rw [p15]
    norm_num
  have e2 : weakHashSum (rest ++ [b]) (16 - 1) = 11 * weakHashSum rest 14 + (b : Int) := by
    rw [weakHashSum_append_single, hr]
    rw [show (16 : Int) - 1 - (15 : Nat) = 0 by norm_num, p0]
    rw [show (16 : Int) - 1 = 14 + 1 by norm_num,
      weakHashSum_mul_seed rest 14 (by rw [hr]; norm_num)]
    simp [seed]
  simp only [generateWeakHash, rollWeakHash, modulo, e1, e2, p15, seed, modM]
  omega

/-- C1: for every 16-byte window `a :: rest` and every byte `b`, rolling the
from-scratch weak hash by evicting `a` and appending `b` gives the
from-scratch weak hash of the shifted window `rest ++ [b]`. -/
theorem rollWeakHash_eq_generateWeakHash (a : Nat) (rest : List Nat) (b : Nat)
    (hlen : (a :: rest).length = 16) (hbytes : ∀ x ∈ a :: rest, x < 256) (hb : b < 256) :
    rollWeakHash (generateWeakHash (a :: rest) 16) a b 16 =
      generateWeakHash (rest ++ [b]) 16 :=
  rollWeakHash_shifts a rest b hlen

/-- Witness for C1 at the spec's own window and byte. -/
theorem rollWeakHash_eq_generateWeakHash_witness :
    rollWeakHash (generateWeakHash (97 :: [98, 99, 100, 101, 102, 103, 104, 105, 106, 107, 108, 109, 110, 111, 112]) 16) 97 113 16 =
      generateWeakHash ([98, 99, 100, 101, 102, 103, 104, 105, 106, 107, 108, 109, 110, 111, 112] ++ [113]) 16 :=
  rollWeakHash_eq_generateWeakHash 97
    [98, 99, 100, 101, 102, 103, 104, 105, 106, 107, 108, 109, 110, 111, 112] 113
    (by decide) (by decide) (by decide)

/-- C2: the pinned numeric vectors of the spec: weak and strong hash of
"abcdefghijklmnop", the rolled weak hash after evicting 'a' and appending
'q', and its agreement with the from-scratch hash of "bcdefghijklmnopq". -/
theorem hash_testVectors :
    generateWeakHash testBuffer 16 = 76935130210 ∧
    generateStrongHash testBuffer 16 =
      "f39dac6cbaba535e2c207cd0cd8f154974223c848f727f98b3564cea569b41cf" ∧
    rollWeakHash 76935130210 97 113 16 = 49921073876 ∧
    rollWeakHash 76935130210 97 113 16 = generateWeakHash (testBuffer.drop 1 ++ [113]) 16 := by
  exact ⟨by decide, by decide, by decide, by decide⟩

/-- C3: modulo() is the Euclidean remainder — non-negative, below a positive
divisor, and congruent to the dividend — with the spec's `(-10) mod 4 = 2`;
consequently generateWeakHash and rollWeakHash (at the package's window size,
on values in the reachable domain) always land in `[0, 10^11 + 9)`. -/
theorem modulo_props :
    (∀ x y : Int, 0 < y → 0 ≤ modulo x y ∧ modulo x y < y ∧ y ∣ (x - modulo x y)) ∧
    modulo (-10) 4 = 2 ∧
    (∀ buffer : List Nat, 0 ≤ generateWeakHash buffer chunk ∧ generateWeakHash buffer chunk < modM) ∧
    (∀ (hash : Int) (a b : Nat), 0 ≤ hash → hash < modM → a < 256 → b < 256 →
      0 ≤ rollWeakHash hash a b chunk ∧ rollWeakHash hash a b chunk < modM) := by
  have hM : (0 : Int) < modM := by norm_num [modM]
  refine ⟨fun x y hy => ⟨Int.emod_nonneg x (ne_of_gt hy), Int.emod_lt_of_pos x hy, ⟨x / y, ?_⟩⟩,
    by decide, fun buffer => ⟨?_, ?_⟩, fun hash a b _ _ _ _ => ⟨?_, ?_⟩⟩
  · have h := Int.emod_add_ediv x y
    have : modulo x y = x % y := rfl
    rw [this]
    linarith
  · exact Int.emod_nonneg _ (ne_of_gt hM)
  · exact Int.emod_lt_of_pos _ hM
  · exact Int.emod_nonneg _ (ne_of_gt hM)
  · exact Int.emod_lt_of_pos _ hM

/-- Witness for C3 at concrete inputs. -/
theorem modulo_props_witness :
    (0 ≤ modulo (-10) 4 ∧ modulo (-10) 4 < 4 ∧ (4 : Int) ∣ (-10 - modulo (-10) 4)) ∧
    (0 ≤ rollWeakHash 76935130210 97 113 chunk ∧ rollWeakHash 76935130210 97 113 chunk < modM) :=
  ⟨modulo_props.1 (-10) 4 (by norm_num),
   modulo_props.2.2.2 76935130210 97 113 (by norm_num) (by norm_num [modM])
     (by norm_num) (by norm_num)⟩

/-- C5: prefix-insertion scenario.  With the one-entry Signature built from
the original "abcdefghijklmnop" and the updated source "123abcdefghijklmnop",
GenerateDelta returns exactly the two-entry Delta
`{0: modified 0..2 "123", 3: matched head=0 tail=15}`. -/
theorem generateDelta_prefixInsertion :
    GenerateDelta (ByteSource.mk ([49, 50, 51] ++ testBuffer) false)
        [(generateWeakHash testBuffer chunk,
          StrongSignature.mk (generateStrongHash testBuffer chunk) 0 15)] =
      DeltaOutcome.ok
        [(0, Block.mk 0 2 true [49, 50, 51]), (3, Block.mk 0 15 false [])] := by
  decide

/-- C6: evaluation at the failing input.  A source holding the single byte
'a' (fewer than W = 16 bytes) does NOT make GenerateSignature fail: the single
Read returns one byte, the window is zero-padded, and a one-entry Signature is
returned with nil error — contradicting the claimed end-of-stream failure. -/
theorem generateSignature_shortSource_succeeds :
    GenerateSignature (ByteSource.mk [97] false) =
      Except.ok [(generateWeakHash ([97] ++ List.replicate 15 0) chunk,
        StrongSignature.mk (generateStrongHash ([97] ++ List.replicate 15 0) chunk) 0 15)] := by
  decide

/-- C6 companion: the end-of-stream failure does occur for the empty source. -/
theorem generateSignature_emptySource_fails :
    GenerateSignature (ByteSource.mk [] false) = Except.error SyncError.endOfFile := by
  decide

/-- C10 counterexample: GenerateDelta is not panic-free.  On the updated
source "abcdefghijklmnopqr" with a Signature containing the windows
"abcdefghijklmnop" (head 0) and "cdefghijklmnopqr" (head 16), the window
matches at destination 0, misses at 1 and matches again at 2, so the open
modified block holds a single byte when the truncation computes
`Tail := 0 + 1 - 16` and the slice `Value[0 : Tail+1]` is out of range — a Go
runtime panic. -/
theorem generateDelta_sliceOutOfRange :
    GenerateDelta (ByteSource.mk (testBuffer ++ [113, 114]) false)
        [(generateWeakHash testBuffer chunk,
          StrongSignature.mk (generateStrongHash testBuffer chunk) 0 15),
         (generateWeakHash (testBuffer.drop 2 ++ [113, 114]) chunk,
          StrongSignature.mk (generateStrongHash (testBuffer.drop 2 ++ [113, 114]) chunk) 16 31)] =
      DeltaOutcome.outOfRange := by
  decide

/-- C10 amended: at a not-matched-to-matched transition on a non-initial
modified block whose Value holds `Tail + 1` bytes, the truncation succeeds
exactly when the block already holds at least 15 bytes (`Tail ≥ 14`);
with fewer, the slice bound `Tail + 1 - 16 + 1` is negative and the code
aborts with the out-of-range panic. -/
theorem generateMatchedBlock_truncation_iff (delta : Delta) (block : Block)
    (blockHead deltaHead rollHead rollTail : Int)
    (hlen : (block.Value.length : Int) = block.Tail + 1) :
    (generateMatchedBlock delta block false true blockHead deltaHead rollHead rollTail true).isSome
      ↔ 14 ≤ block.Tail := by
  have hunfold : generateMatchedBlock delta block false true blockHead deltaHead rollHead rollTail true
      = (if block.Tail + 1 - chunk + 1 < 0 ∨ (block.Value.length : Int) < block.Tail + 1 - chunk + 1
         then none
         else some (mapInsert delta blockHead
             { block with Tail := block.Tail + 1 - chunk,
                          Value := block.Value.take (block.Tail + 1 - chunk + 1).toNat },
           Block.mk rollHead rollTail (!true) [], deltaHead, true)) := rfl
  rw [hunfold]
  by_cases hc : block.Tail + 1 - chunk + 1 < 0 ∨ (block.Value.length : Int) < block.Tail + 1 - chunk + 1
  · rw [if_pos hc]
    simp only [Option.isSome_none, Bool.false_eq_true, false_iff, not_le]
    simp only [chunk] at hc
    omega
  · rw [if_neg hc]
    simp only [Option.isSome_some, true_iff]
    simp only [chunk] at hc
    omega

/-- Witness for the amended C10: with 15 accumulated bytes the truncation goes
through. -/
theorem generateMatchedBlock_truncation_iff_witness :
    (generateMatchedBlock [] (Block.mk 0 14 true (List.replicate 15 0)) false true
        15 16 2 17 true).isSome :=
  (generateMatchedBlock_truncation_iff [] (Block.mk 0 14 true (List.replicate 15 0))
    15 16 2 17 (by decide)).mpr (by decide)

/-- C8: compareChecksums returns `(false, -1, -1)` when the weak hash is not a
key of the Signature — for every window, so the window (and hence its strong
hash) is never examined on a miss; on a weak-hash hit it compares the SHA-256
hex of the window against the stored strong hash and returns
`(true, item.Head, item.Tail)` on equality and `(false, -1, -1)` otherwise. -/
theorem compareChecksums_spec (signature : Signature) (buffer : List Nat) (weakHash : Int) :
    (lookupKV signature weakHash = none →
      ∀ buffer' : List Nat, compareChecksums signature buffer' weakHash = (false, -1, -1)) ∧
    (∀ item : StrongSignature, lookupKV signature weakHash = some item →
      (generateStrongHash buffer chunk = item.Hash →
        compareChecksums signature buffer weakHash = (true, item.Head, item.Tail)) ∧
      (generateStrongHash buffer chunk ≠ item.Hash →
        compareChecksums signature buffer weakHash = (false, -1, -1))) := by
  refine ⟨fun hnone buffer' => ?_, fun item hsome => ⟨fun heq => ?_, fun hne => ?_⟩⟩
  · simp [compareChecksums, hnone]
  · simp [compareChecksums, hsome, heq]
  · simp [compareChecksums, hsome, if_neg hne]

/-- Witness for C8: a miss on the empty Signature, and a hit on the spec's
test window. -/
theorem compareChecksums_spec_witness :
    compareChecksums [] testBuffer 5 = (false, -1, -1) ∧
    compareChecksums
        [(76935130210, StrongSignature.mk (generateStrongHash testBuffer chunk) 4 19)]
        testBuffer 76935130210 = (true, 4, 19) :=
  ⟨(compareChecksums_spec [] testBuffer 5).1 (by decide) testBuffer,
   ((compareChecksums_spec
      [(76935130210, StrongSignature.mk (generateStrongHash testBuffer chunk) 4 19)]
      testBuffer 76935130210).2
      (StrongSignature.mk (generateStrongHash testBuffer chunk) 4 19) (by decide)).1 rfl⟩

/-! Association-list facts about the Go-map model. -/

theorem lookupKV_mapInsert_self {β : Type} (m : List (Int × β)) (k : Int) (v : β) :
    lookupKV (mapInsert m k v) k = some v := by
  induction m with
  | nil => simp [mapInsert, lookupKV]
  | cons p rest ih =>
    by_cases hk : p.1 = k
    · simp [mapInsert, hk, lookupKV]
    · simp only [mapInsert]
      rw [if_neg hk]
      simp [lookupKV, hk, ih]

theorem lookupKV_mapInsert_ne {β : Type} (m : List (Int × β)) (k k' : Int) (v : β)
    (h : k' ≠ k) : lookupKV (mapInsert m k v) k' = lookupKV m k' := by
  induction m with
  | nil =>
    simp only [mapInsert, lookupKV]
    rw [if_neg (fun h' => h h'.symm)]
  | cons p rest ih =>
    by_cases hk : p.1 = k
    · simp only [mapInsert, if_pos hk, lookupKV]
      rw [if_neg (fun h' => h h'.symm), if_neg (by rw [hk]; exact fun h' => h h'.symm)]
    · simp only [mapInsert, if_neg hk, lookupKV]
      by_cases hp : p.1 = k'
      · rw [if_pos hp, if_pos hp]
      · rw [if_neg hp, if_neg hp, ih]

theorem mapInsert_eq_append {β : Type} (m : List (Int × β)) (k : Int) (v : β)
    (h : lookupKV m k = none) : mapInsert m k v = m ++ [(k, v)] := by
  induction m with
  | nil => simp [mapInsert]
  | cons p rest ih =>
    simp only [lookupKV] at h
    by_cases hk : p.1 = k
    · rw [if_pos hk] at h; exact absurd h (by simp)
    · rw [if_neg hk] at h
      simp only [mapInsert, if_neg hk, List.cons_append, List.cons.injEq, true_and]
      exact ih h

theorem length_mapInsert_of_mem {β : Type} (m : List (Int × β)) (k : Int) (v : β)
    (h : (lookupKV m k).isSome) : (mapInsert m k v).length = m.length := by
  induction m with
  | nil => simp [lookupKV] at h
  | cons p rest ih =>
    simp only [lookupKV] at h
    by_cases hk : p.1 = k
    · simp [mapInsert, hk]
    · rw [if_neg hk] at h
      simp only [mapInsert, if_neg hk, List.length_cons, ih h]

theorem length_mapInsert_of_not_mem {β : Type} (m : List (Int × β)) (k : Int) (v : β)
    (h : lookupKV m k = none) : (mapInsert m k v).length = m.length + 1 := by
  rw [mapInsert_eq_append m k v h]
  simp

theorem lookupKV_mem {β : Type} (m : List (Int × β)) (k : Int) (v : β)
    (h : lookupKV m k = some v) : (k, v) ∈ m := by
  induction m with
  | nil => simp [lookupKV] at h
  | cons p rest ih =>
    simp only [lookupKV] at h
    by_cases hk : p.1 = k
    · rw [if_pos hk] at h
      simp only [Option.some.injEq] at h
      have hp : p = (k, v) := by
        rcases p with ⟨a, b⟩
        simp only [Prod.mk.injEq]
        exact ⟨hk, h⟩
      rw [hp]
      exact List.mem_cons_self _ _
    · rw [if_neg hk] at h
      exact List.mem_cons_of_mem _ (ih h)

theorem mapInsert_ne_nil {β : Type} (m : List (Int × β)) (k : Int) (v : β) :
    mapInsert m k v ≠ [] := by
  cases m with
  | nil => simp [mapInsert]
  | cons p rest =>
    simp only [mapInsert]
    by_cases hk : p.1 = k
    · rw [if_pos hk]; simp
    · rw [if_neg hk]; simp

/-- Inserting into a delta whose first key is 0 (or which is empty with
insertion key 0) keeps the first key 0. -/
theorem mapInsert_headKey_zero {β : Type} (m : List (Int × β)) (k : Int) (v : β)
    (h : (m = [] ∧ k = 0) ∨ ∃ b tl, m = (0, b) :: tl) :
    ∃ b tl, mapInsert m k v = (0, b) :: tl := by
  rcases h with ⟨rfl, rfl⟩ | ⟨b, tl, rfl⟩
  · exact ⟨v, [], rfl⟩
  · simp only [mapInsert]
    by_cases hk : (0 : Int) = k
    · rw [if_pos hk, ← hk]
      exact ⟨v, tl, rfl⟩
    · rw [if_neg hk]
      exact ⟨b, mapInsert tl k v, rfl⟩

/-- Every delta produced by a completed run of the loop of GenerateDelta()
has key 0 on its first entry (block heads only ever move at emissions, and the
first emission happens at block head 0). -/
theorem deltaLoop_finished_headKey (signature : Signature) (readErr : Bool) :
    ∀ (rest buffer : List Nat) (weakHash : Int) (delta : Delta) (block : Block)
      (ex ibm : Bool) (blockHead deltaHead : Int) (d : Delta),
      ((delta = [] ∧ blockHead = 0) ∨ ∃ b tl, delta = (0, b) :: tl) →
      deltaLoop signature readErr rest buffer weakHash delta block ex ibm blockHead deltaHead =
        LoopResult.finished d →
      ∃ b tl, d = (0, b) :: tl := by
  intro rest
  induction rest with
  | nil =>
    intro buffer weakHash delta block ex ibm blockHead deltaHead d hinv h
    simp only [deltaLoop] at h
    cases readErr with
    | true => simp at h
    | false =>
      rw [if_neg Bool.false_ne_true] at h
      simp only [LoopResult.finished.injEq] at h
      subst h
      exact mapInsert_headKey_zero delta blockHead block hinv
  | cons nextByte rest' ih =>
    intro buffer weakHash delta block ex ibm blockHead deltaHead d hinv h
    simp only [deltaLoop] at h
    by_cases hres : (compareChecksums signature (push (pop buffer).1 nextByte)
        (rollWeakHash weakHash (pop buffer).2 nextByte chunk)).1
    · rw [if_pos hres] at h
      cases hgen : generateMatchedBlock delta block ex ibm blockHead (deltaHead + 1)
          (compareChecksums signature (push (pop buffer).1 nextByte)
            (rollWeakHash weakHash (pop buffer).2 nextByte chunk)).2.1
          (compareChecksums signature (push (pop buffer).1 nextByte)
            (rollWeakHash weakHash (pop buffer).2 nextByte chunk)).2.2 true with
      | none => rw [hgen] at h; simp at h
      | some q =>
        rw [hgen] at h
        refine ih _ _ q.1 q.2.1 true q.2.2.2 q.2.2.1 _ d ?_ h
        -- the produced delta either is unchanged or went through mapInsert
        simp only [generateMatchedBlock] at hgen
        by_cases hex : ex
        · rw [if_pos (by simpa using hex)] at hgen
          simp only [Option.some.injEq] at hgen
          rw [← hgen]
          exact hinv
        · rw [if_neg (by simpa using hex)] at hgen
          by_cases hibm : ibm
          · rw [if_neg (by simpa using hibm)] at hgen
            by_cases hcond : block.Tail + 1 - chunk + 1 < 0 ∨
                (block.Value.length : Int) < block.Tail + 1 - chunk + 1
            · rw [if_pos hcond] at hgen; simp at hgen
            · rw [if_neg hcond] at hgen
              simp only [Option.some.injEq] at hgen
              rw [← hgen]
              exact Or.inr (mapInsert_headKey_zero delta blockHead _ hinv)
          · rw [if_pos (by simpa using hibm)] at hgen
            simp only [Option.some.injEq] at hgen
            rw [← hgen]
            exact Or.inr (mapInsert_headKey_zero delta blockHead _ hinv)
    · rw [if_neg hres] at h
      refine ih _ _ _ _ false ibm _ _ d ?_ h
      simp only [generateMissingBlock]
      by_cases hex : ex
      · rw [if_pos (by simpa using hex)]
        exact Or.inr (mapInsert_headKey_zero delta blockHead block hinv)
      · rw [if_neg (by simpa using hex)]
        exact hinv

/-- C7: after a completed loop, a Delta holding exactly one entry whose block
is matched makes GenerateDelta return the no-changes error with an empty
Delta; every other completed run returns the accumulated Delta with nil
error. -/
theorem generateDelta_noChangeDetection (src : ByteSource) (signature : Signature) (d : Delta)
    (h : GenerateDeltaLoop src signature = LoopResult.finished d) :
    ((d.length = 1 ∧ ∀ kb ∈ d, kb.2.IsModified = false) →
      GenerateDelta src signature = DeltaOutcome.err SyncError.noChanges) ∧
    (¬(d.length = 1 ∧ ∀ kb ∈ d, kb.2.IsModified = false) →
      GenerateDelta src signature = DeltaOutcome.ok d) := by
  have hhead : ∃ b tl, d = (0, b) :: tl := by
    rw [GenerateDeltaLoop] at h
    cases hpb : populateBuffer src chunk with
    | error e => rw [hpb] at h; simp at h
    | ok pr =>
      rw [hpb] at h
      exact deltaLoop_finished_headKey signature src.readErr _ _ _ [] _ _ _ 0 0 d
        (Or.inl ⟨rfl, rfl⟩) h
  rcases hhead with ⟨b, tl, rfl⟩
  constructor
  · rintro ⟨hlen, hmod⟩
    cases tl with
    | cons x xs => simp [List.length_cons] at hlen
    | nil =>
      have hb : b.IsModified = false := hmod (0, b) (by simp)
      simp [GenerateDelta, h, hasNoChanges, lookupKV, hb]
  · intro hnot
    cases tl with
    | nil =>
      have hb : b.IsModified = true := by
        by_contra hb'
        exact hnot ⟨by simp, by
          intro kb hkb
          simp only [List.mem_singleton] at hkb
          subst hkb
          simpa using hb'⟩
      simp [GenerateDelta, h, hasNoChanges, lookupKV, hb]
    | cons x xs =>
      have hnc : hasNoChanges ((0, b) :: x :: xs) = false := by
        have hno : ¬(hasNoChanges ((0, b) :: x :: xs) = true) := by
          simp only [hasNoChanges, Bool.and_eq_true, beq_iff_eq, List.length_cons]
          rintro ⟨h1, -⟩
          omega
        simpa using hno
      simp [GenerateDelta, h, hnc]

/-- Witness for C7: the no-change scenario (updated identical to original). -/
theorem generateDelta_noChangeDetection_witness :
    GenerateDelta (ByteSource.mk testBuffer false)
        [(generateWeakHash testBuffer chunk,
          StrongSignature.mk (generateStrongHash testBuffer chunk) 0 15)] =
      DeltaOutcome.err SyncError.noChanges :=
  (generateDelta_noChangeDetection (ByteSource.mk testBuffer false)
      [(generateWeakHash testBuffer chunk,
        StrongSignature.mk (generateStrongHash testBuffer chunk) 0 15)]
      [(0, Block.mk 0 15 false [])] (by decide)).1 (by decide)

/-! List helpers for windows of a byte stream. -/

theorem drop_cons_succ {α : Type} :
    ∀ (n : Nat) (l : List α) (b : α) (t : List α), l.drop n = b :: t → l.drop (n + 1) = t := by
  intro n
  induction n with
  | zero =>
    intro l b t h
    simp only [List.drop_zero] at h
    subst h
    simp
  | succ n ihn =>
    intro l b t h
    cases l with
    | nil => simp at h
    | cons x xs => exact ihn xs b t h

theorem take_succ_of_drop_cons {α : Type} :
    ∀ (n : Nat) (l : List α) (b : α) (t : List α), l.drop n = b :: t →
      l.take (n + 1) = l.take n ++ [b] := by
  intro n
  induction n with
  | zero =>
    intro l b t h
    simp only [List.drop_zero] at h
    subst h
    simp
  | succ n ihn =>
    intro l b t h
    cases l with
    | nil => simp at h
    | cons x xs =>
      simp only [List.drop_succ_cons] at h
      simp only [List.take_succ_cons, ihn xs b t h, List.cons_append]

theorem windowAt_length (D : List Nat) (p : Nat) (h : p + 16 ≤ D.length) :
    (windowAt D p).length = 16 := by
  simp only [windowAt, List.length_take, List.length_drop]
  omega

/-- Rolling the window: dropping the front byte and appending the next stream
byte yields the window one offset later. -/
theorem windowAt_roll (D : List Nat) (p : Nat) (nextByte : Nat) (t : List Nat)
    (hd : D.drop (p + 16) = nextByte :: t) :
    (windowAt D p).drop 1 ++ [nextByte] = windowAt D (p + 1) := by
  have hdrop : (D.drop (p + 1)).drop 15 = D.drop (p + 16) := by
    rw [List.drop_drop]
  have htake : (D.drop (p + 1)).take 16 = (D.drop (p + 1)).take 15 ++ [nextByte] :=
    take_succ_of_drop_cons 15 (D.drop (p + 1)) nextByte t (by rw [hdrop]; exact hd)
  unfold windowAt
  rw [htake]
  congr 1
  rw [List.drop_take, List.drop_drop]

/-- Rolling the weak hash: the loop's incrementally rolled hash agrees with
the from-scratch hash of the rolled window. -/
theorem weakOf_roll (D : List Nat) (p : Nat) (nextByte : Nat) (t : List Nat)
    (hp : p + 16 ≤ D.length) (hd : D.drop (p + 16) = nextByte :: t) :
    rollWeakHash (weakOf D p) ((pop (windowAt D p)).2) nextByte chunk = weakOf D (p + 1) := by
  have hlen : (windowAt D p).length = 16 := windowAt_length D p hp
  cases hw : windowAt D p with
  | nil => rw [hw] at hlen; simp at hlen
  | cons a rest =>
    have hroll := rollWeakHash_shifts a rest nextByte (by rw [← hw]; exact hlen)
    have hwin : rest ++ [nextByte] = windowAt D (p + 1) := by
      have := windowAt_roll D p nextByte t hd
      rw [hw] at this
      simpa using this
    simp only [weakOf, chunk, pop, hw, List.headD_cons]
    rw [← hwin, hroll]

/-- The strong hash stored by the loop is the strong hash of the rolled
window. -/
theorem strongOf_roll (D : List Nat) (p : Nat) (nextByte : Nat) (t : List Nat)
    (hd : D.drop (p + 16) = nextByte :: t) :
    generateStrongHash (push (pop (windowAt D p)).1 nextByte) chunk = strongOf D (p + 1) := by
  have := windowAt_roll D p nextByte t hd
  simp only [strongOf, push, pop]
  rw [this]

/-- Invariant of the loop of GenerateSignature(): after processing windows
`0..p`, the signature has at most `p+1` entries and maps the weak hash of
every processed window to the entry of the last processed window carrying
that hash.  The loop preserves it to the end of the stream. -/
theorem signatureLoop_spec (D : List Nat) (readErr : Bool) :
    ∀ (rest : List Nat) (p : Nat) (signature : Signature),
      p + 16 ≤ D.length →
      rest = D.drop (p + 16) →
      signature.length ≤ p + 1 →
      (∀ i : Nat, i ≤ p → ∃ j : Nat, i ≤ j ∧ j ≤ p ∧ weakOf D j = weakOf D i ∧
        (∀ j' : Nat, j < j' → j' ≤ p → weakOf D j' ≠ weakOf D i) ∧
        lookupKV signature (weakOf D i) =
          some (StrongSignature.mk (strongOf D j) (j : Int) ((j : Int) + 15))) →
      ∀ out : Signature,
        signatureLoop rest (windowAt D p) readErr (weakOf D p) (p : Int) ((p : Int) + 15)
          signature = Except.ok out →
        out.length + 15 ≤ D.length ∧
        (∀ i : Nat, i + 16 ≤ D.length → ∃ j : Nat, i ≤ j ∧ j + 16 ≤ D.length ∧
          weakOf D j = weakOf D i ∧
          (∀ j' : Nat, j < j' → j' + 16 ≤ D.length → weakOf D j' ≠ weakOf D i) ∧
          lookupKV out (weakOf D i) =
            some (StrongSignature.mk (strongOf D j) (j : Int) ((j : Int) + 15))) := by
  intro rest
  induction rest with
  | nil =>
    intro p signature hp hrest hlen hinv out hout
    have hend : D.length = p + 16 := by
      have := List.drop_eq_nil_iff_le.mp hrest.symm
      omega
    simp only [signatureLoop] at hout
    cases readErr with
    | true => simp at hout
    | false =>
      rw [if_neg Bool.false_ne_true] at hout
      simp only [Except.ok.injEq] at hout
      subst hout
      constructor
      · omega
      · intro i hi
        obtain ⟨j, hij, hjp, hw, hmax, hlook⟩ := hinv i (by omega)
        exact ⟨j, hij, by omega, hw, fun j' h1 h2 => hmax j' h1 (by omega), hlook⟩
  | cons nextByte rest' ih =>
    intro p signature hp hrest hlen hinv out hout
    have hd : D.drop (p + 16) = nextByte :: rest' := hrest.symm
    have hp1 : p + 16 < D.length := by
      by_contra hle
      have : D.drop (p + 16) = [] := List.drop_eq_nil_iff_le.mpr (by omega)
      rw [this] at hd
      simp at hd
    have hrest' : rest' = D.drop (p + 1 + 16) := by
      have h17 := drop_cons_succ (p + 16) D nextByte rest' hd
      rw [← h17]
    simp only [signatureLoop] at hout
    rw [weakOf_roll D p nextByte rest' hp hd, strongOf_roll D p nextByte rest' hd] at hout
    have hwin' : push (pop (windowAt D p)).1 nextByte = windowAt D (p + 1) := by
      have := windowAt_roll D p nextByte rest' hd
      simpa [push, pop] using this
    rw [hwin'] at hout
    have hcast1 : ((p : Int) + 1) = ((p + 1 : Nat) : Int) := by push_cast; ring
    have hcast2 : ((p : Int) + 15 + 1) = ((p + 1 : Nat) : Int) + 15 := by push_cast; ring
    rw [hcast1, hcast2] at hout
    have hinsert := lookupKV_mapInsert_self signature (weakOf D (p + 1))
      (StrongSignature.mk (strongOf D (p + 1)) ((p + 1 : Nat) : Int) (((p + 1 : Nat) : Int) + 15))
    refine ih (p + 1) _ (by omega) hrest' ?_ ?_ out hout
    · by_cases hmem : (lookupKV signature (weakOf D (p + 1))).isSome
      · rw [length_mapInsert_of_mem _ _ _ hmem]
        omega
      · rw [length_mapInsert_of_not_mem _ _ _ (by
          cases hcase : lookupKV signature (weakOf D (p + 1))
          · rfl
          · rw [hcase] at hmem; simp at hmem)]
        omega
    · intro i hi
      by_cases hsame : weakOf D i = weakOf D (p + 1)
      · refine ⟨p + 1, by omega, le_refl _, hsame.symm ▸ rfl, fun j' h1 h2 => by omega, ?_⟩
        rw [hsame, hinsert]
      · have hip : i ≤ p := by
          rcases Nat.lt_or_ge i (p + 1) with hlt | hge
          · omega
          · exfalso
            have : i = p + 1 := by omega
            exact hsame (by rw [this])
        obtain ⟨j, hij, hjp, hw, hmax, hlook⟩ := hinv i hip
        refine ⟨j, hij, by omega, hw, ?_, ?_⟩
        · intro j' h1 h2
          by_cases hj' : j' = p + 1
          · rw [hj']
            exact fun hcon => hsame hcon.symm
          · exact hmax j' h1 (by omega)
        · rw [lookupKV_mapInsert_ne _ _ _ _ hsame, hlook]

/-- C9: on a source of length `L ≥ 16` with a clean end of stream, the
Signature produced by GenerateSignature has at most `L - W + 1` entries, and
it maps the weak hash of any window to the entry of the *last* window bearing
that weak hash — a later window with the same weak hash replaces the earlier
entry. -/
theorem generateSignature_lastWins (src : ByteSource) (sig : Signature)
    (hL : 16 ≤ src.data.length)
    (hok : GenerateSignature src = Except.ok sig) :
    sig.length + 15 ≤ src.data.length ∧
    ∀ i j : Nat, i + 16 ≤ src.data.length → j + 16 ≤ src.data.length →
      weakOf src.data j = weakOf src.data i →
      (∀ j' : Nat, j < j' → j' + 16 ≤ src.data.length → weakOf src.data j' ≠ weakOf src.data i) →
      lookupKV sig (weakOf src.data i) =
        some (StrongSignature.mk (strongOf src.data j) (j : Int) ((j : Int) + 15)) := by
  have hne : src.data.length ≠ 0 := by omega
  have hmin : min chunk.toNat src.data.length = 16 := by
    show min 16 src.data.length = 16
    omega
  rw [GenerateSignature] at hok
  rw [populateBuffer] at hok
  rw [if_neg hne] at hok
  simp only [hmin] at hok
  have hbufeq : List.take 16 src.data ++ List.replicate (chunk.toNat - 16) 0 =
      windowAt src.data 0 := by
    show List.take 16 src.data ++ List.replicate (16 - 16) 0 = _
    simp [windowAt]
  rw [hbufeq] at hok
  have hloop := signatureLoop_spec src.data src.readErr (src.data.drop 16) 0
    [(weakOf src.data 0,
      StrongSignature.mk (strongOf src.data 0) ((0 : Nat) : Int) (((0 : Nat) : Int) + 15))]
    (by omega) rfl (by simp)
    (by
      intro i hi
      have : i = 0 := by omega
      subst this
      refine ⟨0, le_refl _, le_refl _, rfl, fun j' h1 h2 => by omega, ?_⟩
      simp [lookupKV])
    sig
    (by
      simp only [weakOf, strongOf]
      have e0 : ((0 : Nat) : Int) = 0 := rfl
      rw [e0]
      norm_num
      simp only [mapInsert] at hok
      have e1 : (chunk - 1 : Int) = 15 := by decide
      rw [e1] at hok
      exact hok)
  obtain ⟨h1, h2⟩ := hloop
  refine ⟨h1, ?_⟩
  intro i j hi hj hw hmax
  obtain ⟨j0, hij0, hj0, hw0, hmax0, hlook0⟩ := h2 i hi
  have : j = j0 := by
    rcases Nat.lt_trichotomy j j0 with hlt | heq | hgt
    · exact absurd hw0 (hmax j0 hlt hj0)
    · exact heq
    · exact absurd hw (hmax0 j hgt hj)
  rw [this]
  exact hlook0

/-- Witness for C9: the 17-byte source "abcdefghijklmnopq" has two windows;
the signature maps the first window's weak hash to the first window's entry
(head 0), which is maximal for its hash. -/
theorem generateSignature_lastWins_witness :
    lookupKV
        [(76935130210,
          StrongSignature.mk "f39dac6cbaba535e2c207cd0cd8f154974223c848f727f98b3564cea569b41cf" 0 15),
         (49921073876,
          StrongSignature.mk "2c9d26566889bcb66e96d74b97b14bc36cfd8c2949ab289fff2caeb0422e91b0" 1 16)]
        (weakOf (testBuffer ++ [113]) 0) =
      some (StrongSignature.mk (strongOf (testBuffer ++ [113]) 0) ((0 : Nat) : Int)
        (((0 : Nat) : Int) + 15)) :=
  by
  refine (generateSignature_lastWins (ByteSource.mk (testBuffer ++ [113]) false) _
    (by decide) (by decide)).2 0 0 (by decide) (by decide) rfl ?_
  intro j' h1 h2
  have hlen : (ByteSource.mk (testBuffer ++ [113]) false).data.length = 17 := by decide
  rw [hlen] at h2
  have hj : j' = 1 := by omega
  subst hj
  decide

/-! Algebra of the tiling predicates. -/

theorem tilesB_append :
    ∀ (d : List (Int × Block)) (s k : Int) (b : Block), tilesB d s k = true →
      0 < spanOf b → tilesB (d ++ [(k, b)]) s (k + spanOf b) = true := by
  intro d
  induction d with
  | nil =>
    intro s k b ht hb
    simp only [tilesB, beq_iff_eq] at ht
    subst ht
    simp [tilesB, hb]
  | cons p rest ih =>
    intro s k b ht hb
    obtain ⟨kp, bp⟩ := p
    simp only [tilesB, Bool.and_eq_true, beq_iff_eq, decide_eq_true_eq] at ht
    obtain ⟨⟨h1, h2⟩, h3⟩ := ht
    simp only [List.cons_append, tilesB, Bool.and_eq_true, beq_iff_eq, decide_eq_true_eq]
    exact ⟨⟨h1, h2⟩, ih _ k b h3 hb⟩

theorem tilesB_le :
    ∀ (d : List (Int × Block)) (s e : Int), tilesB d s e = true → s ≤ e := by
  intro d
  induction d with
  | nil =>
    intro s e ht
    simp only [tilesB, beq_iff_eq] at ht
    omega
  | cons p rest ih =>
    intro s e ht
    obtain ⟨kp, bp⟩ := p
    simp only [tilesB, Bool.and_eq_true, beq_iff_eq, decide_eq_true_eq] at ht
    obtain ⟨⟨h1, h2⟩, h3⟩ := ht
    have := ih _ _ h3
    omega

theorem tilesB_keys_lt :
    ∀ (d : List (Int × Block)) (s e : Int), tilesB d s e = true →
      ∀ kb ∈ d, s ≤ kb.1 ∧ kb.1 < e := by
  intro d
  induction d with
  | nil => intro s e _ kb hkb; simp at hkb
  | cons p rest ih =>
    intro s e ht kb hkb
    obtain ⟨kp, bp⟩ := p
    simp only [tilesB, Bool.and_eq_true, beq_iff_eq, decide_eq_true_eq] at ht
    obtain ⟨⟨h1, h2⟩, h3⟩ := ht
    rcases List.mem_cons.mp hkb with heq | hmem
    · subst heq
      have := tilesB_le rest _ _ h3
      omega
    · have := ih _ _ h3 kb hmem
      omega

theorem lookupKV_none_of_keys_lt (d : List (Int × Block)) (e : Int)
    (h : ∀ kb ∈ d, kb.1 < e) : lookupKV d e = none := by
  induction d with
  | nil => rfl
  | cons p rest ih =>
    simp only [lookupKV]
    rw [if_neg]
    · exact ih (fun kb hkb => h kb (List.mem_cons_of_mem _ hkb))
    · have := h p (List.mem_cons_self _ _)
      omega

theorem lastModB_append (d : List (Int × Block)) (k : Int) (b : Block) :
    lastModB (d ++ [(k, b)]) = b.IsModified := by
  induction d with
  | nil => rfl
  | cons p rest ih =>
    cases rest with
    | nil => simp [lastModB]
    | cons q rest' => simpa [lastModB] using ih

theorem noAdjModB_append :
    ∀ (d : List (Int × Block)) (k : Int) (b : Block), noAdjModB d = true →
      (lastModB d = true → b.IsModified = false) → noAdjModB (d ++ [(k, b)]) = true := by
  intro d
  induction d with
  | nil => intro k b _ _; rfl
  | cons p rest ih =>
    intro k b hadj hlast
    cases rest with
    | nil =>
      obtain ⟨kp, bp⟩ := p
      simp only [lastModB] at hlast
      simp only [List.cons_append, List.nil_append, noAdjModB, Bool.and_eq_true,
        Bool.not_eq_true']
      refine ⟨?_, trivial⟩
      cases hbp : bp.IsModified
      · simp
      · simp [hlast hbp]
    | cons q rest' =>
      obtain ⟨kp, bp⟩ := p
      obtain ⟨kq, bq⟩ := q
      simp only [noAdjModB, Bool.and_eq_true] at hadj
      simp only [lastModB] at hlast
      simp only [List.cons_append, noAdjModB, Bool.and_eq_true]
      refine ⟨hadj.1, ?_⟩
      have hres := ih k b hadj.2 hlast
      simpa using hres

theorem mapInsert_append_last (d0 : List (Int × Block)) (K : Int) (z b : Block)
    (h : ∀ kb ∈ d0, kb.1 ≠ K) : mapInsert (d0 ++ [(K, z)]) K b = d0 ++ [(K, b)] := by
  induction d0 with
  | nil => simp [mapInsert]
  | cons p rest ih =>
    simp only [List.cons_append, mapInsert]
    rw [if_neg (h p (List.mem_cons_self _ _))]
    rw [show (rest.append [(K, z)]) = rest ++ [(K, z)] from rfl]
    rw [ih (fun kb hkb => h kb (List.mem_cons_of_mem _ hkb))]

/-- On a signature whose entries all span 16 bytes, a hit of compareChecksums
returns head/tail offsets 15 apart. -/
theorem compareChecksums_span (signature : Signature) (buffer : List Nat) (weakHash : Int)
    (hsig : ∀ p ∈ signature, p.2.Tail = p.2.Head + 15)
    (hhit : (compareChecksums signature buffer weakHash).1 = true) :
    (compareChecksums signature buffer weakHash).2.2 =
      (compareChecksums signature buffer weakHash).2.1 + 15 := by
  unfold compareChecksums at hhit ⊢
  cases hlk : lookupKV signature weakHash with
  | none =>
    rw [hlk] at hhit
    simp at hhit
  | some item =>
    rw [hlk] at hhit
    by_cases hs : generateStrongHash buffer chunk = item.Hash
    · simp only [hs, if_pos]
      exact hsig (weakHash, item) (lookupKV_mem _ _ _ hlk)
    · simp [hs] at hhit

/-- generateMissingBlock() preserves the Delta-builder invariant (the next
position is a miss, so `ex` becomes false and `deltaHead` advances). -/
theorem generateMissingBlock_inv (delta : Delta) (block : Block) (ex ibm : Bool)
    (blockHead deltaHead : Int) (nextByte : Nat) (buffer : List Nat)
    (hinv : DeltaInv delta block ex ibm blockHead deltaHead) :
    DeltaInv (generateMissingBlock delta block ex ibm blockHead nextByte buffer).1
      (generateMissingBlock delta block ex ibm blockHead nextByte buffer).2.1
      false ibm
      (generateMissingBlock delta block ex ibm blockHead nextByte buffer).2.2
      (deltaHead + 1) := by
  obtain ⟨bHead, bTail, bMod, bVal⟩ := block
  cases ibm with
  | false =>
    cases ex with
    | true => exact hinv.elim
    | false =>
      simp only [DeltaInv] at hinv
      obtain ⟨hd, hbh, hdh, hH, hT, hM, hL⟩ := hinv
      simp only [generateMissingBlock, Bool.false_eq_true, if_false, Bool.not_false, if_true,
        DeltaInv]
      refine ⟨hd, hbh, by omega, hH, by simpa using hT, hM, ?_⟩
      simp only [List.length_append, List.length_cons, List.length_nil]
      push_cast
      omega
  | true =>
    cases ex with
    | false =>
      simp only [DeltaInv] at hinv
      obtain ⟨hM, hH, hT0, hL, hpos, htiles, hnoAdj, hne, hlast⟩ := hinv
      simp only [generateMissingBlock, Bool.false_eq_true, if_false, Bool.not_true, if_false,
        DeltaInv]
      refine ⟨hM, hH, by omega, ?_, by omega, htiles, hnoAdj, hne, hlast⟩
      simp only [List.length_append, List.length_cons, List.length_nil]
      push_cast
      omega
    | true =>
      simp only [DeltaInv] at hinv
      obtain ⟨hM, hs16, hspan, hdel⟩ := hinv
      simp only [generateMissingBlock, if_true, DeltaInv]
      simp only [spanOf] at hs16 hspan
      refine ⟨by simp, by simp, by simp, by simp, by omega, ?_⟩
      rcases hdel with ⟨hd, hbh⟩ | ⟨htiles, hnoAdj, hne, hlast⟩ | ⟨d0, z, hdeq, hzM, hzS, htiles, hnoAdj, hne, hlast⟩
      · subst hd hbh
        simp only [mapInsert]
        refine ⟨?_, by simp [noAdjModB], by simp, ?_⟩
        · simp only [tilesB, Bool.and_eq_true, beq_iff_eq, decide_eq_true_eq, spanOf]
          refine ⟨⟨by simp, by omega⟩, by omega⟩
        · simp [lastModB, hM]
      · have hkeys := tilesB_keys_lt delta 0 blockHead htiles
        have happ : mapInsert delta blockHead (Block.mk bHead bTail bMod bVal) =
            delta ++ [(blockHead, Block.mk bHead bTail bMod bVal)] :=
          mapInsert_eq_append _ _ _
            (lookupKV_none_of_keys_lt delta blockHead (fun kb hkb => (hkeys kb hkb).2))
        rw [happ]
        refine ⟨?_, ?_, by simp, ?_⟩
        · have := tilesB_append delta 0 blockHead (Block.mk bHead bTail bMod bVal) htiles
            (by simp only [spanOf]; omega)
          have he : blockHead + spanOf (Block.mk bHead bTail bMod bVal) =
              blockHead + bTail - bHead + 1 := by simp only [spanOf]; omega
          rw [he] at this
          exact this
        · exact noAdjModB_append delta blockHead _ hnoAdj (fun _ => hM)
        · rw [lastModB_append]
          exact hM
      · have hkeys := tilesB_keys_lt d0 0 blockHead htiles
        have happ : mapInsert delta blockHead (Block.mk bHead bTail bMod bVal) =
            d0 ++ [(blockHead, Block.mk bHead bTail bMod bVal)] := by
          rw [hdeq]
          exact mapInsert_append_last d0 blockHead z _
            (fun kb hkb => by have := (hkeys kb hkb).2; omega)
        rw [happ]
        refine ⟨?_, ?_, by simp, ?_⟩
        · have := tilesB_append d0 0 blockHead (Block.mk bHead bTail bMod bVal) htiles
            (by simp only [spanOf]; omega)
          have he : blockHead + spanOf (Block.mk bHead bTail bMod bVal) =
              blockHead + bTail - bHead + 1 := by simp only [spanOf]; omega
          rw [he] at this
          exact this
        · refine noAdjModB_append d0 blockHead _ hnoAdj ?_
          intro hl
          rw [hlast] at hl
          exact absurd hl Bool.false_ne_true
        · rw [lastModB_append]
          exact hM

/-- generateMatchedBlock() preserves the Delta-builder invariant whenever it
does not abort (the next position is a match with a span-16 signature entry,
so `ex` becomes true, `ibm` becomes true, and `deltaHead` advances). -/
theorem generateMatchedBlock_inv (delta : Delta) (block : Block) (ex ibm : Bool)
    (blockHead deltaHead rollHead rollTail : Int) (q : Delta × Block × Int × Bool)
    (hspan : rollTail = rollHead + 15)
    (hinv : DeltaInv delta block ex ibm blockHead deltaHead)
    (hgen : generateMatchedBlock delta block ex ibm blockHead (deltaHead + 1) rollHead rollTail
      true = some q) :
    DeltaInv q.1 q.2.1 true q.2.2.2 q.2.2.1 (deltaHead + 1) := by
  obtain ⟨bHead, bTail, bMod, bVal⟩ := block
  cases ibm with
  | false =>
    cases ex with
    | true => exact hinv.elim
    | false =>
      simp only [DeltaInv] at hinv
      obtain ⟨hd, hbh, hdh, hH, hT, hM, hL⟩ := hinv
      subst hd hbh
      simp only [generateMatchedBlock, Bool.false_eq_true, if_false, Bool.not_false, if_true,
        Option.some.injEq] at hgen
      subst hgen
      simp only [DeltaInv, mapInsert]
      refine ⟨by simp, by simp only [spanOf]; omega, by simp only [spanOf]; omega, ?_⟩
      refine Or.inr (Or.inl ⟨?_, by simp [noAdjModB], by simp, ?_⟩)
      · simp only [tilesB, Bool.and_eq_true, beq_iff_eq, decide_eq_true_eq, spanOf]
        simp only [hH, hT] at *
        refine ⟨⟨by simp, by omega⟩, by omega⟩
      · simp only [lastModB]
        exact hM
  | true =>
    cases ex with
    | true =>
      simp only [DeltaInv] at hinv
      obtain ⟨hM, hs16, hspan2, hdel⟩ := hinv
      simp only [generateMatchedBlock, if_true, Option.some.injEq] at hgen
      subst hgen
      simp only [DeltaInv]
      simp only [spanOf] at hs16 hspan2 ⊢
      refine ⟨by simpa using hM, by omega, by omega, ?_⟩
      exact hdel
    | false =>
      simp only [DeltaInv] at hinv
      obtain ⟨hM, hH, hT0, hL, hposition, htiles, hnoAdj, hne, hlast⟩ := hinv
      subst hH
      simp only [generateMatchedBlock, Bool.false_eq_true, if_false, Bool.not_true] at hgen
      by_cases hcond : bTail + 1 - chunk + 1 < 0 ∨ (bVal.length : Int) < bTail + 1 - chunk + 1
      · rw [if_pos hcond] at hgen
        exact absurd hgen (by simp)
      · rw [if_neg hcond] at hgen
        simp only [Option.some.injEq] at hgen
        subst hgen
        push_neg at hcond
        obtain ⟨hc1, hc2⟩ := hcond
        simp only [chunk] at hc1 hc2
        simp only [DeltaInv]
        refine ⟨by simp, by simp only [spanOf]; omega, by simp only [spanOf]; omega, ?_⟩
        have hkeys := tilesB_keys_lt delta 0 blockHead htiles
        have happ : mapInsert delta blockHead
            (Block.mk 0 (bTail + 1 - chunk) bMod (bVal.take ((bTail + 1 - chunk + 1).toNat))) =
            delta ++ [(blockHead,
              Block.mk 0 (bTail + 1 - chunk) bMod (bVal.take ((bTail + 1 - chunk + 1).toNat)))] :=
          mapInsert_eq_append _ _ _
            (lookupKV_none_of_keys_lt delta blockHead (fun kb hkb => (hkeys kb hkb).2))
        rw [happ]
        by_cases hz : (0 : Int) < bTail + 1 - chunk + 1
        · refine Or.inr (Or.inl ⟨?_, ?_, by simp, ?_⟩)
          · have hstep := tilesB_append delta 0 blockHead
              (Block.mk 0 (bTail + 1 - chunk) bMod (bVal.take ((bTail + 1 - chunk + 1).toNat)))
              htiles (by simp only [spanOf]; simp only [chunk] at hz ⊢; omega)
            have he : blockHead + spanOf
                (Block.mk 0 (bTail + 1 - chunk) bMod (bVal.take ((bTail + 1 - chunk + 1).toNat))) =
                deltaHead + 1 := by
              simp only [spanOf, chunk]
              omega
            rw [he] at hstep
            exact hstep
          · refine noAdjModB_append delta blockHead _ hnoAdj ?_
            intro hl
            rw [hlast] at hl
            exact absurd hl Bool.false_ne_true
          · rw [lastModB_append]
            exact hM
        · have hbh : blockHead = deltaHead + 1 := by
            simp only [chunk] at hz
            omega
          subst hbh
          refine Or.inr (Or.inr ⟨delta,
            Block.mk 0 (bTail + 1 - chunk) bMod (bVal.take ((bTail + 1 - chunk + 1).toNat)),
            rfl, by simpa using hM, ?_, htiles, hnoAdj, hne, hlast⟩)
          simp only [spanOf, chunk]
          simp only [chunk] at hz
          omega

/-- The loop of GenerateDelta() keeps the invariant and, at end of stream,
emits a delta that tiles the destination range — provided some window matched
(otherwise the delta is the initial modified block and contains no matched
entry, so the conclusion is vacuous). -/
theorem deltaLoop_tiles (signature : Signature) (readErr : Bool)
    (hsig : ∀ p ∈ signature, p.2.Tail = p.2.Head + 15) (L : Int) :
    ∀ (rest buffer : List Nat) (weakHash : Int) (delta : Delta) (block : Block)
      (ex ibm : Bool) (blockHead deltaHead : Int) (d : Delta),
      deltaHead + 16 + (rest.length : Int) = L →
      DeltaInv delta block ex ibm blockHead deltaHead →
      deltaLoop signature readErr rest buffer weakHash delta block ex ibm blockHead deltaHead =
        LoopResult.finished d →
      (∃ kb ∈ d, kb.2.IsModified = false) →
      tilesB d 0 L = true ∧ noAdjModB d = true := by
  intro rest
  induction rest with
  | nil =>
    intro buffer weakHash delta block ex ibm blockHead deltaHead d hL hinv h hmatched
    simp only [deltaLoop] at h
    cases readErr with
    | true => simp at h
    | false =>
      rw [if_neg Bool.false_ne_true] at h
      simp only [LoopResult.finished.injEq] at h
      subst h
      have hL' : L = deltaHead + 16 := by
        simp only [List.length_nil, Nat.cast_zero, add_zero] at hL
        omega
      subst hL'
      obtain ⟨bHead, bTail, bMod, bVal⟩ := block
      cases ibm with
      | false =>
        cases ex with
        | true => exact hinv.elim
        | false =>
          simp only [DeltaInv] at hinv
          obtain ⟨hd, hbh, hdh, hH, hT, hM, hLen⟩ := hinv
          subst hd hbh
          exfalso
          obtain ⟨kb, hmem, hmod⟩ := hmatched
          simp only [mapInsert, List.mem_singleton] at hmem
          subst hmem
          simp [hM] at hmod
      | true =>
        cases ex with
        | true =>
          simp only [DeltaInv] at hinv
          obtain ⟨hM, hs16, hspan, hdel⟩ := hinv
          rcases hdel with ⟨hd, hbh⟩ | ⟨htiles, hnoAdj, hne, hlast⟩ |
            ⟨d0, z, hdeq, hzM, hzS, htiles, hnoAdj, hne, hlast⟩
          · subst hd hbh
            refine ⟨?_, by simp [mapInsert, noAdjModB]⟩
            simp only [mapInsert, tilesB, Bool.and_eq_true, beq_iff_eq, decide_eq_true_eq]
            simp only [spanOf] at hspan hs16 ⊢
            refine ⟨⟨by simp, by omega⟩, by omega⟩
          · have hkeys := tilesB_keys_lt delta 0 blockHead htiles
            have happ : mapInsert delta blockHead (Block.mk bHead bTail bMod bVal) =
                delta ++ [(blockHead, Block.mk bHead bTail bMod bVal)] :=
              mapInsert_eq_append _ _ _
                (lookupKV_none_of_keys_lt delta blockHead (fun kb hkb => (hkeys kb hkb).2))
            rw [happ]
            constructor
            · have hstep := tilesB_append delta 0 blockHead (Block.mk bHead bTail bMod bVal)
                htiles (by simp only [spanOf] at hs16 ⊢; omega)
              have he : blockHead + spanOf (Block.mk bHead bTail bMod bVal) = deltaHead + 16 := by
                simp only [spanOf] at hspan ⊢
                omega
              rw [he] at hstep
              exact hstep
            · exact noAdjModB_append delta blockHead _ hnoAdj (fun _ => hM)
          · have hkeys := tilesB_keys_lt d0 0 blockHead htiles
            have happ : mapInsert delta blockHead (Block.mk bHead bTail bMod bVal) =
                d0 ++ [(blockHead, Block.mk bHead bTail bMod bVal)] := by
              rw [hdeq]
              exact mapInsert_append_last d0 blockHead z _
                (fun kb hkb => by have := (hkeys kb hkb).2; omega)
            rw [happ]
            constructor
            · have hstep := tilesB_append d0 0 blockHead (Block.mk bHead bTail bMod bVal)
                htiles (by simp only [spanOf] at hs16 ⊢; omega)
              have he : blockHead + spanOf (Block.mk bHead bTail bMod bVal) = deltaHead + 16 := by
                simp only [spanOf] at hspan ⊢
                omega
              rw [he] at hstep
              exact hstep
            · refine noAdjModB_append d0 blockHead _ hnoAdj ?_
              intro hl
              rw [hlast] at hl
              exact absurd hl Bool.false_ne_true
        | false =>
          simp only [DeltaInv] at hinv
          obtain ⟨hM, hH, hT0, hLen, hposition, htiles, hnoAdj, hne, hlast⟩ := hinv
          subst hH
          have hkeys := tilesB_keys_lt delta 0 blockHead htiles
          have happ : mapInsert delta blockHead (Block.mk 0 bTail bMod bVal) =
              delta ++ [(blockHead, Block.mk 0 bTail bMod bVal)] :=
            mapInsert_eq_append _ _ _
              (lookupKV_none_of_keys_lt delta blockHead (fun kb hkb => (hkeys kb hkb).2))
          rw [happ]
          constructor
          · have hstep := tilesB_append delta 0 blockHead (Block.mk 0 bTail bMod bVal)
              htiles (by simp only [spanOf]; omega)
            have he : blockHead + spanOf (Block.mk 0 bTail bMod bVal) = deltaHead + 16 := by
              simp only [spanOf]
              omega
            rw [he] at hstep
            exact hstep
          · refine noAdjModB_append delta blockHead _ hnoAdj ?_
            intro hl
            rw [hlast] at hl
            exact absurd hl Bool.false_ne_true
  | cons nextByte rest' ih =>
    intro buffer weakHash delta block ex ibm blockHead deltaHead d hL hinv h hmatched
    have hL1 : (deltaHead + 1) + 16 + ((rest' : List Nat).length : Int) = L := by
      simp only [List.length_cons] at hL
      push_cast at hL
      omega
    simp only [deltaLoop] at h
    by_cases hres : (compareChecksums signature (push (pop buffer).1 nextByte)
        (rollWeakHash weakHash (pop buffer).2 nextByte chunk)).1
    · rw [if_pos hres] at h
      cases hgen : generateMatchedBlock delta block ex ibm blockHead (deltaHead + 1)
          (compareChecksums signature (push (pop buffer).1 nextByte)
            (rollWeakHash weakHash (pop buffer).2 nextByte chunk)).2.1
          (compareChecksums signature (push (pop buffer).1 nextByte)
            (rollWeakHash weakHash (pop buffer).2 nextByte chunk)).2.2 true with
      | none => rw [hgen] at h; simp at h
      | some q =>
        rw [hgen] at h
        have hspanRT := compareChecksums_span signature (push (pop buffer).1 nextByte)
          (rollWeakHash weakHash (pop buffer).2 nextByte chunk) hsig hres
        have hinv' := generateMatchedBlock_inv delta block ex ibm blockHead deltaHead
          (compareChecksums signature (push (pop buffer).1 nextByte)
            (rollWeakHash weakHash (pop buffer).2 nextByte chunk)).2.1
          (compareChecksums signature (push (pop buffer).1 nextByte)
            (rollWeakHash weakHash (pop buffer).2 nextByte chunk)).2.2 q hspanRT hinv hgen
        exact ih _ _ q.1 q.2.1 true q.2.2.2 q.2.2.1 _ d hL1 hinv' h hmatched
    · rw [if_neg hres] at h
      have hinv' := generateMissingBlock_inv delta block ex ibm blockHead deltaHead nextByte
        (push (pop buffer).1 nextByte) hinv
      exact ih _ _ _ _ false ibm _ _ d hL1 hinv' h hmatched

/-- C4 counterexample (deletion at the join): original
"abcdefghijklmnopqrstuvwxyabcdefgh"-style stream with byte 16 deleted.  With
the honest two-window Signature, GenerateDelta returns the Delta
`{0: matched 0..15, 16: matched 17..32}` with nil error — two adjacent
blocks that are BOTH matched, so the claimed strict alternation of matched
and modified blocks is false (the keys do tile `[0, 32)`). -/
theorem generateDelta_deletionScenario :
    GenerateDelta
        (ByteSource.mk (testBuffer ++
          [114, 115, 116, 117, 118, 119, 120, 121, 97, 98, 99, 100, 101, 102, 103, 104]) false)
        [(generateWeakHash testBuffer chunk,
          StrongSignature.mk (generateStrongHash testBuffer chunk) 0 15),
         (generateWeakHash
            [114, 115, 116, 117, 118, 119, 120, 121, 97, 98, 99, 100, 101, 102, 103, 104] chunk,
          StrongSignature.mk (generateStrongHash
            [114, 115, 116, 117, 118, 119, 120, 121, 97, 98, 99, 100, 101, 102, 103, 104] chunk)
            17 32)] =
      DeltaOutcome.ok [(0, Block.mk 0 15 false []), (16, Block.mk 17 32 false [])] ∧
    deltaTilesAndAlternates
      [(0, Block.mk 0 15 false []), (16, Block.mk 17 32 false [])] 32 = false := by
  exact ⟨by decide, by decide⟩

/-- C4 amended: for every byte source of length L' ≥ 16 and every Signature
whose entries all satisfy `Tail = Head + 15` (the spec's own Signature
invariant), if GenerateDelta returns a Delta without error and that Delta
contains at least one matched block, then the Delta's entries, in stored
(ascending-key) order, tile `[0, L')` exactly — first key 0, every block
non-empty, each block starting where the previous one ends — and no two
adjacent blocks are both modified.  Two adjacent blocks may both be matched
(deletions); and when no window matches at all, the Delta is a single
modified block holding only the first L'−15 bytes, so the hypothesis on a
matched block is necessary. -/
theorem generateDelta_tiles (src : ByteSource) (signature : Signature) (d : Delta)
    (hsig : ∀ p ∈ signature, p.2.Tail = p.2.Head + 15)
    (hL : 16 ≤ src.data.length)
    (hok : GenerateDelta src signature = DeltaOutcome.ok d)
    (hmatched : ∃ kb ∈ d, kb.2.IsModified = false) :
    tilesB d 0 (src.data.length : Int) = true ∧ noAdjModB d = true := by
  have hne : src.data.length ≠ 0 := by omega
  have hmin : min chunk.toNat src.data.length = 16 := by
    show min 16 src.data.length = 16
    omega
  rw [GenerateDelta] at hok
  cases hloop : GenerateDeltaLoop src signature with
  | failed e => rw [hloop] at hok; simp at hok
  | outOfRange => rw [hloop] at hok; simp at hok
  | finished d' =>
    rw [hloop] at hok
    by_cases hnc : hasNoChanges d'
    · simp [hnc] at hok
    · simp [hnc] at hok
      subst hok
      rw [GenerateDeltaLoop] at hloop
      rw [populateBuffer] at hloop
      rw [if_neg hne] at hloop
      simp only [hmin] at hloop
      have hbufeq : List.take 16 src.data ++ List.replicate (chunk.toNat - 16) 0 =
          windowAt src.data 0 := by
        show List.take 16 src.data ++ List.replicate (16 - 16) 0 = _
        simp [windowAt]
      rw [hbufeq] at hloop
      have hLmeasure : (0 : Int) + 16 + ((src.data.drop 16).length : Int) =
          (src.data.length : Int) := by
        simp only [List.length_drop]
        omega
      by_cases hres0 : (compareChecksums signature (windowAt src.data 0)
          (generateWeakHash (windowAt src.data 0) chunk)).1
      · rw [if_pos hres0] at hloop
        rw [hres0] at hloop
        have hspan0 := compareChecksums_span signature (windowAt src.data 0)
          (generateWeakHash (windowAt src.data 0) chunk) hsig hres0
        refine deltaLoop_tiles signature src.readErr hsig (src.data.length : Int)
          (src.data.drop 16) (windowAt src.data 0)
          (generateWeakHash (windowAt src.data 0) chunk) [] _ true true 0 0 d' hLmeasure
          ?_ hloop hmatched
        simp only [DeltaInv]
        refine ⟨by simp, ?_, ?_, Or.inl ⟨by first | trivial | simp, by first | trivial | simp⟩⟩
        · simp only [spanOf]
          omega
        · simp only [spanOf]
          omega
      · rw [if_neg hres0] at hloop
        have hres0' : (compareChecksums signature (windowAt src.data 0)
            (generateWeakHash (windowAt src.data 0) chunk)).1 = false := by
          simpa using hres0
        rw [hres0'] at hloop
        refine deltaLoop_tiles signature src.readErr hsig (src.data.length : Int)
          (src.data.drop 16) (windowAt src.data 0)
          (generateWeakHash (windowAt src.data 0) chunk) [] _ false false 0 0 d' hLmeasure
          ?_ hloop hmatched
        simp only [DeltaInv]
        refine ⟨by first | trivial | simp, by first | trivial | simp, by first | trivial | simp,
          by first | trivial | simp, by first | trivial | simp, by first | trivial | simp,
          by first | trivial | simp⟩

/-- Witness for the amended C4 at the deletion scenario. -/
theorem generateDelta_tiles_witness :
    tilesB [(0, Block.mk 0 15 false []), (16, Block.mk 17 32 false [])] 0
        (((ByteSource.mk (testBuffer ++
          [114, 115, 116, 117, 118, 119, 120, 121, 97, 98, 99, 100, 101, 102, 103, 104])
          false).data.length : Int)) = true ∧
    noAdjModB [(0, Block.mk 0 15 false []), (16, Block.mk 17 32 false [])] = true :=
  generateDelta_tiles
    (ByteSource.mk (testBuffer ++
      [114, 115, 116, 117, 118, 119, 120, 121, 97, 98, 99, 100, 101, 102, 103, 104]) false)
    [(generateWeakHash testBuffer chunk,
      StrongSignature.mk (generateStrongHash testBuffer chunk) 0 15),
     (generateWeakHash
        [114, 115, 116, 117, 118, 119, 120, 121, 97, 98, 99, 100, 101, 102, 103, 104] chunk,
      StrongSignature.mk (generateStrongHash
        [114, 115, 116, 117, 118, 119, 120, 121, 97, 98, 99, 100, 101, 102, 103, 104] chunk)
        17 32)]
    [(0, Block.mk 0 15 false []), (16, Block.mk 17 32 false [])]
    (by decide) (by decide) (by decide) (by decide)
